import Mathlib

/-!
Verification of the live speech transcription pipeline of this repository:
the PCM encoder (`src/lib/pcm.ts`), the inline sample conversion of the
recorder component (`src/components/Recorder.vue`), and the turn aggregator
(`handleTurnEvent` / `translate` of the transcript streaming component).

Machine integers are modelled as `Int` with explicit wrapping where the
JavaScript typed-array semantics wraps; JavaScript floating-point samples and
confidences are modelled as rationals (`ℚ`); asynchronous suspension points
(`await`) are modelled explicitly by a handler-result type that either
finishes or suspends with a pending state and a continuation.
-/

/-! ### PCM encoder (`src/lib/pcm.ts`) and recorder conversion -/

/-- JavaScript `ToInt16`-style truncation of a rational toward zero
(the rounding applied when a number is stored into an `Int16Array`). -/
def jsTrunc (q : ℚ) : Int :=
  if 0 ≤ q then Int.floor q else Int.ceil q

/-- Storing a (truncated) value into an `Int16Array` slot wraps it into the
signed 16-bit range, two's complement. -/
def toInt16 (q : ℚ) : Int :=
  ((jsTrunc q + 32768) % 65536) - 32768

/-- Source `pcm.ts` line 4: `const s = Math.max(-1, Math.min(1, float32Array[i]))`. -/
def clampSample (x : ℚ) : ℚ :=
  max (-1) (min 1 x)

/-- Source `pcm.ts` line 5: `pcm[i] = s < 0 ? s * 0x8000 : s * 0x7fff`,
stored into an `Int16Array` slot. -/
def sampleToInt16 (x : ℚ) : Int :=
  let s := clampSample x
  if s < 0 then toInt16 (s * 32768) else toInt16 (s * 32767)

/-- The two bytes of one `Int16Array` entry as seen through
`new Uint8Array(pcm.buffer)`: little-endian, two's complement. -/
def int16ToBytesLE (v : Int) : List Nat :=
  let u := (v % 65536).toNat
  [u % 256, u / 256]

/-- Source `pcm.ts` `float32To16LEPCM`: per-sample clamp/scale/truncate into
an `Int16Array`, then the backing bytes (little-endian). -/
def float32To16LEPCM (float32Array : List ℚ) : List Nat :=
  (float32Array.map sampleToInt16).flatMap int16ToBytesLE

/-- Source `Recorder.vue` line 219 (inside `setupRealtimeProcessing`):
`pcmData[i] = Math.max(-32768, Math.min(32767, inputBuffer[i] * 32767))`,
stored into an `Int16Array` slot. -/
def recorderSampleToInt16 (x : ℚ) : Int :=
  toInt16 (max (-32768) (min 32767 (x * 32767)))

/-- The byte block the recorder callback base64-encodes and sends:
`new Uint8Array(pcmData.buffer)` for the inline-converted samples. -/
def recorderFrameBytes (inputBuffer : List ℚ) : List Nat :=
  (inputBuffer.map recorderSampleToInt16).flatMap int16ToBytesLE

/-- Decoder described by the round-trip claim: reassemble the signed 16-bit
value from its two little-endian bytes. -/
def bytesToInt16 (b0 b1 : Nat) : Int :=
  let u : Int := b0 + 256 * b1
  if u < 32768 then u else u - 65536

/-- Decoder described by the round-trip claim: divide the signed 16-bit
value by the scale used for its sign. -/
def decodeInt16 (v : Int) : ℚ :=
  if v < 0 then (v : ℚ) / 32768 else (v : ℚ) / 32767

/-- Decode two little-endian bytes back to a sample. -/
def decodeSample (b0 b1 : Nat) : ℚ :=
  decodeInt16 (bytesToInt16 b0 b1)

lemma clampSample_lower (x : ℚ) : -1 ≤ clampSample x := le_max_left _ _

lemma clampSample_upper (x : ℚ) : clampSample x ≤ 1 :=
  max_le (by norm_num) (min_le_left _ _)

lemma jsTrunc_range {q : ℚ} (h1 : -32768 ≤ q) (h2 : q ≤ 32767) :
    -32768 ≤ jsTrunc q ∧ jsTrunc q ≤ 32767 := by
  unfold jsTrunc
  split
  · constructor
    · rw [Int.le_floor]; push_cast; linarith
    · have h := (Int.floor_le q).trans h2
      exact_mod_cast h
  · constructor
    · have h := h1.trans (Int.le_ceil q)
      exact_mod_cast h
    · rw [Int.ceil_le]; push_cast; linarith

lemma toInt16_of_range {q : ℚ} (h1 : -32768 ≤ q) (h2 : q ≤ 32767) :
    toInt16 q = jsTrunc q := by
  obtain ⟨hl, hu⟩ := jsTrunc_range h1 h2
  unfold toInt16
  omega

lemma sampleToInt16_range (x : ℚ) :
    -32768 ≤ sampleToInt16 x ∧ sampleToInt16 x ≤ 32767 := by
  have hl := clampSample_lower x
  have hu := clampSample_upper x
  simp only [sampleToInt16]
  by_cases hs : clampSample x < 0
  · rw [if_pos hs]
    have h1 : (-32768 : ℚ) ≤ clampSample x * 32768 := by linarith
    have h2 : clampSample x * 32768 ≤ 32767 := by linarith
    rw [toInt16_of_range h1 h2]
    exact jsTrunc_range h1 h2
  · rw [if_neg hs]
    push_neg at hs
    have h1 : (-32768 : ℚ) ≤ clampSample x * 32767 := by linarith
    have h2 : clampSample x * 32767 ≤ 32767 := by linarith
    rw [toInt16_of_range h1 h2]
    exact jsTrunc_range h1 h2

lemma sampleToInt16_eq_jsTrunc (x : ℚ) :
    sampleToInt16 x =
      if clampSample x < 0 then jsTrunc (clampSample x * 32768)
      else jsTrunc (clampSample x * 32767) := by
  have hl := clampSample_lower x
  have hu := clampSample_upper x
  simp only [sampleToInt16]
  by_cases hs : clampSample x < 0
  · rw [if_pos hs, if_pos hs, toInt16_of_range (by linarith) (by linarith)]
  · rw [if_neg hs, if_neg hs]
    push_neg at hs
    rw [toInt16_of_range (by linarith) (by linarith)]

lemma int16ToBytesLE_length (v : Int) : (int16ToBytesLE v).length = 2 := rfl

lemma float32To16LEPCM_length (xs : List ℚ) :
    (float32To16LEPCM xs).length = 2 * xs.length := by
  unfold float32To16LEPCM
  induction xs with
  | nil => rfl
  | cons y ys ih =>
      simp only [List.map_cons, List.flatMap_cons, List.length_append, ih,
        int16ToBytesLE_length, List.length_cons]
      omega

lemma bytesToInt16_int16ToBytesLE {v : Int} (h1 : -32768 ≤ v) (h2 : v ≤ 32767)
    (b0 b1 : Nat) (heq : int16ToBytesLE v = [b0, b1]) :
    bytesToInt16 b0 b1 = v := by
  simp only [int16ToBytesLE, List.cons.injEq, and_true] at heq
  obtain ⟨h0, h1'⟩ := heq
  subst h0
  subst h1'
  simp only [bytesToInt16]
  split <;> omega

lemma decodeInt16_sampleToInt16_close {x : ℚ} (h1 : -1 ≤ x) (h2 : x ≤ 1) :
    |decodeInt16 (sampleToInt16 x) - x| ≤ 1 / 32767 := by
  have hcl : clampSample x = x := by
    unfold clampSample
    rw [min_eq_right h2, max_eq_right h1]
  rw [sampleToInt16_eq_jsTrunc, hcl]
  by_cases hx : x < 0
  · rw [if_pos hx]
    have hq0 : x * 32768 < 0 := mul_neg_of_neg_of_pos hx (by norm_num)
    have htr : jsTrunc (x * 32768) = Int.ceil (x * 32768) := by
      unfold jsTrunc
      rw [if_neg (by linarith)]
    rw [htr]
    have hle : x * 32768 ≤ (Int.ceil (x * 32768) : ℚ) := Int.le_ceil _
    have hlt : (Int.ceil (x * 32768) : ℚ) < x * 32768 + 1 := Int.ceil_lt_add_one _
    unfold decodeInt16
    by_cases hv0 : Int.ceil (x * 32768) < 0
    · rw [if_pos hv0]
      rw [abs_le]
      constructor
      · have hxx : x ≤ (Int.ceil (x * 32768) : ℚ) / 32768 := by
          rw [le_div_iff₀ (by norm_num : (0:ℚ) < 32768)]
          linarith
        linarith
      · have hdd : (Int.ceil (x * 32768) : ℚ) / 32768 ≤ x + 1 / 32768 := by
          rw [div_le_iff₀ (by norm_num : (0:ℚ) < 32768)]
          have : (x + 1 / 32768) * 32768 = x * 32768 + 1 := by ring
          linarith [this]
        have h78 : (1:ℚ) / 32768 ≤ 1 / 32767 := by norm_num
        linarith
    · have hvle : Int.ceil (x * 32768) ≤ 0 := by
        rw [Int.ceil_le]
        push_cast
        linarith
      have hveq : Int.ceil (x * 32768) = 0 := le_antisymm hvle (not_lt.mp hv0)
      rw [if_neg hv0, hveq]
      have hz : ((0 : Int) : ℚ) / 32767 - x = -x := by push_cast; ring
      rw [hz, abs_neg, abs_of_neg hx]
      have : (0 : ℚ) < x * 32768 + 1 := by
        rw [hveq] at hlt
        push_cast at hlt
        linarith
      have h78 : (1:ℚ) / 32768 ≤ 1 / 32767 := by norm_num
      have : -x ≤ 1 / 32768 := by
        rw [neg_le]
        nlinarith
      linarith
  · rw [if_neg hx]
    push_neg at hx
    have hq0 : (0:ℚ) ≤ x * 32767 := mul_nonneg hx (by norm_num)
    have htr : jsTrunc (x * 32767) = Int.floor (x * 32767) := by
      unfold jsTrunc
      rw [if_pos (by linarith)]
    rw [htr]
    have hle : (Int.floor (x * 32767) : ℚ) ≤ x * 32767 := Int.floor_le _
    have hlt : x * 32767 < (Int.floor (x * 32767) : ℚ) + 1 := Int.lt_floor_add_one _
    have hv0 : ¬ Int.floor (x * 32767) < 0 := by
      push_neg
      rw [Int.le_floor]
      push_cast
      linarith
    unfold decodeInt16
    rw [if_neg hv0]
    rw [abs_le]
    constructor
    · have : x - 1 / 32767 ≤ (Int.floor (x * 32767) : ℚ) / 32767 := by
        rw [le_div_iff₀ (by norm_num : (0:ℚ) < 32767)]
        have : (x - 1 / 32767) * 32767 = x * 32767 - 1 := by ring
        linarith [this]
      linarith
    · have : (Int.floor (x * 32767) : ℚ) / 32767 ≤ x := by
        rw [div_le_iff₀ (by norm_num : (0:ℚ) < 32767)]
        linarith
      have h0 : (0:ℚ) ≤ 1 / 32767 := by norm_num
      linarith

/-- Claim C7: the encoder is a pure function on a block of samples: each
sample is clamped to the range -1..1, negative samples are scaled by 32768
and non-negative samples by 32767 and truncated to a signed 16-bit integer,
each value is serialized little-endian at 2 bytes per sample, the output is
exactly 2 times the input length, and no sample overflows the signed 16-bit
range. -/
theorem encoder_pure_shape (xs : List ℚ) :
    (float32To16LEPCM xs).length = 2 * xs.length ∧
    float32To16LEPCM xs = xs.flatMap (fun x =>
      let s := max (-1) (min 1 x)
      let v : Int := if s < 0 then jsTrunc (s * 32768) else jsTrunc (s * 32767)
      [((v % 65536).toNat) % 256, ((v % 65536).toNat) / 256]) ∧
    ∀ x ∈ xs, -32768 ≤ sampleToInt16 x ∧ sampleToInt16 x ≤ 32767 := by
  refine ⟨float32To16LEPCM_length xs, ?_, fun x _ => sampleToInt16_range x⟩
  unfold float32To16LEPCM
  induction xs with
  | nil => rfl
  | cons y ys ih =>
      simp only [List.map_cons, List.flatMap_cons, ih]
      congr 1
      rw [sampleToInt16_eq_jsTrunc]
      simp only [int16ToBytesLE, clampSample]

/-- Claim C8: for every sample in the range -1..1, decoding the two encoded
bytes back to a rational (dividing the signed 16-bit value by the scale used
for its sign) yields a value within 1/32767 of the original sample. -/
theorem encoder_roundtrip_bound (x : ℚ) (h1 : -1 ≤ x) (h2 : x ≤ 1)
    (b0 b1 : Nat) (hb : int16ToBytesLE (sampleToInt16 x) = [b0, b1]) :
    |decodeSample b0 b1 - x| ≤ 1 / 32767 := by
  obtain ⟨hr1, hr2⟩ := sampleToInt16_range x
  rw [decodeSample, bytesToInt16_int16ToBytesLE hr1 hr2 b0 b1 hb]
  exact decodeInt16_sampleToInt16_close h1 h2

theorem encoder_roundtrip_bound_witness :
    |decodeSample 255 127 - (1 : ℚ)| ≤ 1 / 32767 := by
  have hcl : clampSample (1:ℚ) = 1 := by unfold clampSample; norm_num
  have hs : sampleToInt16 (1:ℚ) = 32767 := by
    rw [sampleToInt16_eq_jsTrunc, hcl, if_neg (by norm_num)]
    unfold jsTrunc
    rw [if_pos (by norm_num), Int.floor_eq_iff] <;> norm_num
  have hb : int16ToBytesLE (sampleToInt16 (1:ℚ)) = [255, 127] := by
    rw [hs]; decide
  exact encoder_roundtrip_bound 1 (by norm_num) (by norm_num) 255 127 hb

/-- Claim C10 counterexample: at the sample block consisting of the single
sample -1 the recorder's inline conversion (clamp to the signed 16-bit range
after multiplying by 32767) produces the bytes of -32767 while the dedicated
encoder `float32To16LEPCM` (scale negative samples by 32768 after clamping
to -1..1) produces the bytes of -32768, so the two byte sequences differ. -/
theorem recorder_pcm_counterexample :
    recorderFrameBytes [(-1 : ℚ)] ≠ float32To16LEPCM [(-1 : ℚ)] := by
  have hr : recorderSampleToInt16 (-1 : ℚ) = -32767 := by
    have h1 : max ((-32768):ℚ) (min 32767 ((-1) * 32767)) = -32767 := by norm_num
    rw [recorderSampleToInt16, h1, toInt16_of_range (by norm_num) (by norm_num)]
    unfold jsTrunc
    rw [if_neg (by norm_num), Int.ceil_eq_iff] <;> norm_num
  have hp : sampleToInt16 (-1 : ℚ) = -32768 := by
    have hcl : clampSample (-1:ℚ) = -1 := by unfold clampSample; norm_num
    rw [sampleToInt16_eq_jsTrunc, hcl, if_pos (by norm_num)]
    unfold jsTrunc
    rw [if_neg (by norm_num), Int.ceil_eq_iff] <;> norm_num
  have hrb : recorderFrameBytes [(-1 : ℚ)] = [1, 128] := by
    unfold recorderFrameBytes
    rw [List.map_cons, List.map_nil, hr]
    decide
  have hpb : float32To16LEPCM [(-1 : ℚ)] = [0, 128] := by
    unfold float32To16LEPCM
    rw [List.map_cons, List.map_nil, hp]
    decide
  rw [hrb, hpb]
  decide

lemma recorderSampleToInt16_eq_of_nonneg {x : ℚ} (hx : 0 ≤ x) :
    recorderSampleToInt16 x = sampleToInt16 x := by
  have hxm : (0:ℚ) ≤ x * 32767 := mul_nonneg hx (by norm_num)
  have h1 : max ((-32768):ℚ) (min 32767 (x * 32767)) = min 32767 (x * 32767) := by
    apply max_eq_right
    rcases le_total (32767 : ℚ) (x * 32767) with h | h
    · rw [min_eq_left h]; norm_num
    · rw [min_eq_right h]; linarith
  have h2 : clampSample x = min 1 x := by
    unfold clampSample
    exact max_eq_right (le_min (by norm_num) (by linarith))
  have h3 : min 1 x * 32767 = min 32767 (x * 32767) := by
    rcases le_total x (1:ℚ) with h | h
    · rw [min_eq_right h, min_eq_right (by linarith)]
    · rw [min_eq_left h, min_eq_left (by linarith)]; norm_num
  have hns : ¬ clampSample x < 0 := by
    rw [h2]
    push_neg
    exact le_min (by norm_num) hx
  simp only [recorderSampleToInt16, sampleToInt16]
  rw [h1, if_neg hns, h2, h3]

/-- Claim C10 (amended): for every block of non-negative samples, the inline
conversion in the Recorder's audio-processing callback produces the same byte
sequence as the dedicated encoder `float32To16LEPCM`; on negative samples the
two conversions differ in general (see the counterexample at -1). -/
theorem recorder_pcm_agree_nonneg (xs : List ℚ) (h : ∀ x ∈ xs, 0 ≤ x) :
    recorderFrameBytes xs = float32To16LEPCM xs := by
  unfold recorderFrameBytes float32To16LEPCM
  rw [List.map_congr_left fun x hx => recorderSampleToInt16_eq_of_nonneg (h x hx)]

theorem recorder_pcm_agree_nonneg_witness :
    recorderFrameBytes [(1 : ℚ)] = float32To16LEPCM [(1 : ℚ)] :=
  recorder_pcm_agree_nonneg [(1 : ℚ)] (by norm_num)

/-! ### Turn aggregator (`handleTurnEvent` of the transcript component)

State and handler translated from the transcript streaming component.
JavaScript numbers that hold wire confidences/timestamps are modelled as
`ℚ`/`Nat`; `turn_order` and the `-1` sentinel are modelled as `Int`.
The `await translate(...)` suspension points of the source are modelled by
`HandlerResult.awaiting`, carrying the aggregator state observable while the
handler is suspended and the continuation run when the translation resolves. -/

namespace Transcriber

/-- Wire word (`types/index.ts`); `end` is a reserved word in Lean, hence
the field is called `end_`. -/
structure Word where
  start : ℚ
  end_ : ℚ
  confidence : ℚ
  text : String
  word_is_final : Bool
deriving DecidableEq, Repr

/-- Inbound `Turn` wire message (`types/index.ts`, `TurnEventData`). -/
structure TurnEventData where
  turn_order : Int
  turn_is_formatted : Bool
  end_of_turn : Bool
  transcript : String
  end_of_turn_confidence : ℚ
  words : List Word
deriving DecidableEq, Repr

/-- Aggregator output segment (`types/index.ts`, `TranscriptSegment`);
`colorClass` holds the Tailwind class picked from the `colors` array. -/
structure TranscriptSegment where
  turn : Int
  colorClass : String
  timestamp : Nat
  confidence : ℚ
  text : String
  words : List Word
  translated_text : Option String
deriving DecidableEq, Repr

/-- The mutable refs of the component that `handleTurnEvent` touches:
`transcript`, `currentTurnWords`, `currentTurnOrder` and the module-level
`colorIndex`. -/
structure AggState where
  transcript : List TranscriptSegment
  currentTurnWords : List String
  currentTurnOrder : Int
  colorIndex : Int
deriving DecidableEq, Repr

/-- The state set up by `startStreaming` / `clearTranscript`: empty
transcript, no open words, `currentTurnOrder = -1`, `colorIndex = 0`. -/
def initialState : AggState :=
  { transcript := [], currentTurnWords := [], currentTurnOrder := -1, colorIndex := 0 }

/-- The `text` entries of the component's `colors` array, in order. -/
def colorsText : List String :=
  ["text-violet-700", "text-emerald-700", "text-rose-700",
   "text-blue-700", "text-amber-700", "text-cyan-700"]

/-- `newWords.reduce((acc, word) => acc + word.confidence, 0) / newWords.length`,
guarded by `newWords.length > 0` as in the source. -/
def avgConfidenceOf (ws : List Word) : ℚ :=
  if 0 < ws.length then (ws.foldl (fun acc w => acc + w.confidence) 0) / (ws.length : ℚ)
  else 0

/-- Word accumulation (source lines 277-281): each final word whose text is
not already present is appended to the open-turn word list. -/
def accumulateWords (newWords : List Word) (cur : List String) : List String :=
  newWords.foldl
    (fun acc w => if w.word_is_final = true ∧ w.text ∉ acc then acc ++ [w.text] else acc)
    cur

/-- The implicit-close push (source lines 261-269): the previously open turn
is finalized into a segment appended to the transcript; the open words and
open turn order are not yet touched here. -/
def pushImplicit (now : Nat) (avgConfidence : ℚ) (text : String) (tr : Option String)
    (s : AggState) : AggState :=
  { s with transcript := s.transcript ++
      [{ text := text, turn := s.currentTurnOrder,
         colorClass := colorsText.getD (((s.colorIndex - 1 + 6) % 6).toNat) "",
         timestamp := now, confidence := avgConfidence, words := [],
         translated_text := tr }] }

/-- The tail of the turn-boundary branch (source lines 272-274): adopt the
event's turn order, clear the open words, advance the color index. -/
def boundaryReset (e : TurnEventData) (s : AggState) : AggState :=
  { s with currentTurnOrder := e.turn_order, currentTurnWords := [],
           colorIndex := (s.colorIndex + 1) % 6 }

/-- The explicit-close push (source lines 291-301): the accumulated open
words become a segment, the open words are cleared and the open turn order
is reset to -1. -/
def pushFinal (now : Nat) (avgConfidence : ℚ) (e : TurnEventData) (tr : Option String)
    (s : AggState) : AggState :=
  { s with
      transcript := s.transcript ++
        [{ text := String.intercalate " " s.currentTurnWords, turn := s.currentTurnOrder,
           colorClass := colorsText.getD s.colorIndex.toNat "",
           timestamp := now, confidence := avgConfidence, words := e.words,
           translated_text := tr }]
      currentTurnWords := []
      currentTurnOrder := -1 }

/-- Result of running (part of) the async `handleTurnEvent`: either the
handler ran to completion, or it is suspended on an `await translate(...)`
with `pending` the aggregator state observable during the suspension and the
continuation consuming the resolved translation. -/
inductive HandlerResult where
  | done (s : AggState)
  | awaiting (pending : AggState) (text : String) (k : String → HandlerResult)

/-- Source lines 277-302: the part of `handleTurnEvent` after the
turn-boundary branch: word accumulation, then the explicit close with its
`await translate(finalTurnText)` when the target language is not English. -/
def afterBoundary (language : String) (now : Nat) (avgConfidence : ℚ)
    (e : TurnEventData) (s : AggState) : HandlerResult :=
  let s2 := { s with currentTurnWords := accumulateWords e.words s.currentTurnWords }
  if e.end_of_turn = true ∧ 0 < s2.currentTurnWords.length then
    if language ≠ "en" then
      HandlerResult.awaiting s2 (String.intercalate " " s2.currentTurnWords)
        (fun t => HandlerResult.done (pushFinal now avgConfidence e (some t) s2))
    else HandlerResult.done (pushFinal now avgConfidence e none s2)
  else HandlerResult.done s2

/-- Source lines 247-303, `handleTurnEvent`: turn-boundary detection with
implicit close (and its `await translate(currentSegmentText)`), then the
accumulation/explicit-close phase `afterBoundary`. -/
def handleTurnEvent (language : String) (now : Nat) (e : TurnEventData)
    (s : AggState) : HandlerResult :=
  let avgConfidence := avgConfidenceOf e.words
  if e.turn_order ≠ s.currentTurnOrder then
    if 0 < s.currentTurnWords.length then
      if language ≠ "en" then
        HandlerResult.awaiting s (String.intercalate " " s.currentTurnWords)
          (fun t => afterBoundary language now avgConfidence e
            (boundaryReset e
              (pushImplicit now avgConfidence (String.intercalate " " s.currentTurnWords)
                (some t) s)))
      else
        afterBoundary language now avgConfidence e
          (boundaryReset e
            (pushImplicit now avgConfidence (String.intercalate " " s.currentTurnWords)
              none s))
    else afterBoundary language now avgConfidence e (boundaryReset e s)
  else afterBoundary language now avgConfidence e s

/-- Run a handler result to completion, resolving every pending translation
with the resolver `tr` (the component's `translate` always resolves with a
string, also on failure). -/
def runTranslate (tr : String → String) : HandlerResult → AggState
  | HandlerResult.done s => s
  | HandlerResult.awaiting _ text k => runTranslate tr (k (tr text))

/-- One fully-resolved `handleTurnEvent` call. -/
def handleTurnEventRun (language : String) (tr : String → String) (now : Nat)
    (e : TurnEventData) (s : AggState) : AggState :=
  runTranslate tr (handleTurnEvent language now e s)

/-- A whole inbound event sequence, each event handled to completion in
arrival order. -/
def processEvents (language : String) (tr : String → String) (now : Nat)
    (evs : List TurnEventData) (s : AggState) : AggState :=
  evs.foldl (fun st e => handleTurnEventRun language tr now e st) s

/-- Outcome of one `fetch('/api/translate', ...)` call. -/
inductive FetchResult where
  | ok (body : String)
  | httpError (status : Nat)
  | networkError
deriving DecidableEq, Repr

/-- Source lines 306-324, `translate`: returns the response body on success;
a non-ok response throws, and the catch-all returns the string
`Translation Error: ` followed by the original text, so the promise always
resolves. -/
def translate (outcome : FetchResult) (text : String) : String :=
  match outcome with
  | FetchResult.ok body => body
  | FetchResult.httpError _ => "Translation Error: " ++ text
  | FetchResult.networkError => "Translation Error: " ++ text

/-- Whether a handler call is suspended on a pending translation. -/
def HandlerResult.isAwaiting : HandlerResult → Bool
  | HandlerResult.done _ => false
  | HandlerResult.awaiting _ _ _ => true

/-- The transcript observable while a handler call is suspended. -/
def HandlerResult.pendingTranscript : HandlerResult → Option (List TranscriptSegment)
  | HandlerResult.done _ => none
  | HandlerResult.awaiting s _ _ => some s.transcript

/-- Turn numbers of the produced segments, in transcript order. -/
def turnsOf (s : AggState) : List Int :=
  s.transcript.map TranscriptSegment.turn
/-- The translation value attached to a freshly pushed segment once every
pending translation is resolved by `tr`: the source leaves the variable
`undefined` when the target language is English and otherwise awaits
`translate`. -/
def translatedFor (language : String) (tr : String → String) (text : String) :
    Option String :=
  if language ≠ "en" then some (tr text) else none

/-- The fully-resolved effect of the accumulation/explicit-close phase. -/
def closePhase (language : String) (tr : String → String) (now : Nat)
    (avgConfidence : ℚ) (e : TurnEventData) (s : AggState) : AggState :=
  let s2 := { s with currentTurnWords := accumulateWords e.words s.currentTurnWords }
  if e.end_of_turn = true ∧ 0 < s2.currentTurnWords.length then
    pushFinal now avgConfidence e
      (translatedFor language tr (String.intercalate " " s2.currentTurnWords)) s2
  else s2

/-- The fully-resolved effect of the turn-boundary phase. -/
def openPhase (language : String) (tr : String → String) (now : Nat)
    (avgConfidence : ℚ) (e : TurnEventData) (s : AggState) : AggState :=
  if e.turn_order ≠ s.currentTurnOrder then
    boundaryReset e
      (if 0 < s.currentTurnWords.length then
        pushImplicit now avgConfidence (String.intercalate " " s.currentTurnWords)
          (translatedFor language tr (String.intercalate " " s.currentTurnWords)) s
      else s)
  else s

lemma runTranslate_afterBoundary (language : String) (tr : String → String)
    (now : Nat) (c : ℚ) (e : TurnEventData) (s : AggState) :
    runTranslate tr (afterBoundary language now c e s) =
      closePhase language tr now c e s := by
  unfold afterBoundary closePhase translatedFor
  by_cases hc : e.end_of_turn = true ∧
      0 < (accumulateWords e.words s.currentTurnWords).length
  · rw [if_pos hc, if_pos hc]
    by_cases hl : language ≠ "en"
    · rw [if_pos hl, if_pos hl]
      rfl
    · rw [if_neg hl, if_neg hl]
      rfl
  · rw [if_neg hc, if_neg hc]
    rfl

lemma handleTurnEventRun_eq (language : String) (tr : String → String)
    (now : Nat) (e : TurnEventData) (s : AggState) :
    handleTurnEventRun language tr now e s =
      closePhase language tr now (avgConfidenceOf e.words) e
        (openPhase language tr now (avgConfidenceOf e.words) e s) := by
  unfold handleTurnEventRun handleTurnEvent openPhase
  by_cases hb : e.turn_order ≠ s.currentTurnOrder
  · rw [if_pos hb, if_pos hb]
    by_cases hw : 0 < s.currentTurnWords.length
    · rw [if_pos hw, if_pos hw]
      by_cases hl : language ≠ "en"
      · rw [if_pos hl]
        show runTranslate tr (afterBoundary _ _ _ _ _) = _
        rw [runTranslate_afterBoundary]
        unfold translatedFor
        rw [if_pos hl]
      · rw [if_neg hl]
        rw [runTranslate_afterBoundary]
        unfold translatedFor
        rw [if_neg hl]
    · rw [if_neg hw, if_neg hw]
      exact runTranslate_afterBoundary ..
  · rw [if_neg hb, if_neg hb]
    exact runTranslate_afterBoundary ..

lemma turnsOf_pushImplicit (now : Nat) (c : ℚ) (text : String) (tr : Option String)
    (s : AggState) :
    turnsOf (pushImplicit now c text tr s) = turnsOf s ++ [s.currentTurnOrder] := by
  simp [turnsOf, pushImplicit]

lemma pushImplicit_currentTurnOrder (now : Nat) (c : ℚ) (text : String)
    (tr : Option String) (s : AggState) :
    (pushImplicit now c text tr s).currentTurnOrder = s.currentTurnOrder := rfl

lemma pushImplicit_currentTurnWords (now : Nat) (c : ℚ) (text : String)
    (tr : Option String) (s : AggState) :
    (pushImplicit now c text tr s).currentTurnWords = s.currentTurnWords := rfl

lemma turnsOf_boundaryReset (e : TurnEventData) (s : AggState) :
    turnsOf (boundaryReset e s) = turnsOf s := rfl

lemma turnsOf_pushFinal (now : Nat) (c : ℚ) (e : TurnEventData) (tr : Option String)
    (s : AggState) :
    turnsOf (pushFinal now c e tr s) = turnsOf s ++ [s.currentTurnOrder] := by
  simp [turnsOf, pushFinal]

lemma chain'_lt_append_singleton {l : List Int} {x : Int}
    (h : l.Chain' (· < ·)) (hx : ∀ u ∈ l, u < x) :
    (l ++ [x]).Chain' (· < ·) := by
  rw [List.chain'_append]
  refine ⟨h, List.chain'_singleton x, ?_⟩
  intro y hy z hz
  simp only [List.head?_cons, Option.mem_def, Option.some.injEq] at hz
  subst hz
  obtain ⟨hne, rfl⟩ := List.mem_getLast?_eq_getLast hy
  exact hx _ (List.getLast_mem hne)

/-- Invariant tying the aggregator state to the largest event order `p`
processed so far: produced turns are strictly increasing and at most `p`;
the open turn order is `p` itself unless the state is closed (sentinel -1,
no open words); and while words are open every produced turn is below the
open turn order. -/
structure AggInv (s : AggState) (p : Int) : Prop where
  sorted : (turnsOf s).Chain' (· < ·)
  le_p : ∀ u ∈ turnsOf s, u ≤ p
  cur : s.currentTurnOrder = p ∨ (s.currentTurnOrder = -1 ∧ s.currentTurnWords = [])
  open_gt : s.currentTurnWords ≠ [] → ∀ u ∈ turnsOf s, u < s.currentTurnOrder

lemma AggInv.initial (p : Int) : AggInv initialState p := by
  refine ⟨List.chain'_nil, ?_, Or.inr ⟨rfl, rfl⟩, ?_⟩
  · intro u hu
    simp [initialState, turnsOf] at hu
  · intro h
    simp [initialState] at h

lemma closePhase_step {language : String} {tr : String → String} {now : Nat}
    {c : ℚ} {e : TurnEventData} {s : AggState} {t : Int}
    (ht : s.currentTurnOrder = t)
    (hsorted : (turnsOf s).Chain' (· < ·))
    (hlt : ∀ u ∈ turnsOf s, u < t) :
    AggInv (closePhase language tr now c e s) t := by
  unfold closePhase
  by_cases hc : e.end_of_turn = true ∧
      0 < (accumulateWords e.words s.currentTurnWords).length
  · rw [if_pos hc]
    refine ⟨?_, ?_, Or.inr ⟨rfl, rfl⟩, ?_⟩
    · rw [turnsOf_pushFinal]
      show ((turnsOf s) ++ [s.currentTurnOrder]).Chain' (· < ·)
      rw [ht]
      exact chain'_lt_append_singleton hsorted hlt
    · intro u hu
      rw [turnsOf_pushFinal] at hu
      rcases List.mem_append.mp hu with h | h
      · exact le_of_lt (hlt u h)
      · simp only [List.mem_singleton] at h
        subst h
        rw [ht]
    · intro hw
      simp [pushFinal] at hw
  · rw [if_neg hc]
    refine ⟨hsorted, fun u hu => le_of_lt (hlt u hu), Or.inl ht, fun _ u hu => ?_⟩
    rw [ht]
    exact hlt u hu

lemma AggInv.step (language : String) (tr : String → String) (now : Nat)
    {e : TurnEventData} {s : AggState} {p : Int}
    (hinv : AggInv s p) (hp : p < e.turn_order) :
    AggInv (handleTurnEventRun language tr now e s) e.turn_order := by
  rw [handleTurnEventRun_eq]
  unfold openPhase
  by_cases hb : e.turn_order ≠ s.currentTurnOrder
  · rw [if_pos hb]
    by_cases hw : 0 < s.currentTurnWords.length
    · rw [if_pos hw]
      have hwne : s.currentTurnWords ≠ [] := by
        intro h; rw [h] at hw; simp at hw
      have hcp : s.currentTurnOrder = p := by
        rcases hinv.cur with h | ⟨_, h⟩
        · exact h
        · exact absurd h hwne
      apply closePhase_step (t := e.turn_order) rfl
      · rw [turnsOf_boundaryReset, turnsOf_pushImplicit]
        apply chain'_lt_append_singleton hinv.sorted
        exact hinv.open_gt hwne
      · intro u hu
        rw [turnsOf_boundaryReset, turnsOf_pushImplicit] at hu
        rcases List.mem_append.mp hu with h | h
        · exact lt_of_le_of_lt (hinv.le_p u h) hp
        · simp only [List.mem_singleton] at h
          subst h
          rw [hcp]
          exact hp
    · rw [if_neg hw]
      apply closePhase_step (t := e.turn_order) rfl
      · exact hinv.sorted
      · intro u hu
        exact lt_of_le_of_lt (hinv.le_p u hu) hp
  · rw [if_neg hb]
    push_neg at hb
    apply closePhase_step (t := e.turn_order) hb.symm hinv.sorted
    intro u hu
    exact lt_of_le_of_lt (hinv.le_p u hu) hp

lemma AggInv.processEvents (language : String) (tr : String → String) (now : Nat) :
    ∀ (l : List TurnEventData) (s : AggState) (p : Int),
      AggInv s p → ((p :: l.map (fun e => e.turn_order)).Chain' (· < ·)) →
      ∃ q, AggInv (Transcriber.processEvents language tr now l s) q
  | [], s, p, hinv, _ => ⟨p, hinv⟩
  | e :: l, s, p, hinv, hchain => by
      rw [List.map_cons, List.chain'_cons] at hchain
      obtain ⟨hpe, hchain⟩ := hchain
      have hstep := AggInv.step language tr now (e := e) hinv hpe
      exact AggInv.processEvents language tr now l _ e.turn_order hstep hchain

/-- A final word with the given text (metadata fixed), for concrete runs. -/
def finalWord (t : String) : Word :=
  { start := 0, end_ := 0, confidence := 1, text := t, word_is_final := true }

/-- A `Turn` event with the given order, end-of-turn flag and words, the
remaining wire fields fixed, for concrete runs. -/
def mkTurnEvent (t : Int) (eot : Bool) (ws : List Word) : TurnEventData :=
  { turn_order := t, turn_is_formatted := false, end_of_turn := eot,
    transcript := "", end_of_turn_confidence := 0, words := ws }

/-- Claim C1 counterexample: the event `{turn_order := 0, end_of_turn := true,
words := [A(final)]}` processed twice from the initial state is a monotonically
non-decreasing turn_order sequence, yet it produces two Segments both with
turn 0: after the first event closes turn 0 the open order resets to -1, so
the second event reopens and closes turn 0 again. The produced turn sequence
is therefore neither strictly increasing nor duplicate-free. -/
theorem aggregator_monotone_counterexample :
    ((([mkTurnEvent 0 true [finalWord "A"], mkTurnEvent 0 true [finalWord "A"]]).map
        (fun e => e.turn_order)).Chain' (· ≤ ·)) ∧
    turnsOf (processEvents "en" (fun t => t) 0
      [mkTurnEvent 0 true [finalWord "A"], mkTurnEvent 0 true [finalWord "A"]]
      initialState) = [0, 0] ∧
    ¬ ((turnsOf (processEvents "en" (fun t => t) 0
        [mkTurnEvent 0 true [finalWord "A"], mkTurnEvent 0 true [finalWord "A"]]
        initialState)).Chain' (· < ·)) ∧
    ¬ ((turnsOf (processEvents "en" (fun t => t) 0
        [mkTurnEvent 0 true [finalWord "A"], mkTurnEvent 0 true [finalWord "A"]]
        initialState)).Nodup) := by
  have hm : (([mkTurnEvent 0 true [finalWord "A"],
      mkTurnEvent 0 true [finalWord "A"]]).map (fun e => e.turn_order)) = [0, 0] := by
    decide
  have hrun : turnsOf (processEvents "en" (fun t => t) 0
      [mkTurnEvent 0 true [finalWord "A"], mkTurnEvent 0 true [finalWord "A"]]
      initialState) = [0, 0] := by decide
  refine ⟨?_, hrun, ?_, ?_⟩
  · rw [hm]
    exact List.chain'_pair.mpr le_rfl
  · rw [hrun]
    intro hc
    exact absurd (List.chain'_pair.mp hc) (lt_irrefl 0)
  · rw [hrun]
    decide

/-- Claim C1 (amended): for every sequence of TurnEvents whose turn_order
values are strictly increasing (amended from monotonically non-decreasing,
which the code refutes when a closed turn_order is repeated), processed from
the initial aggregator state, the produced Segment sequence has strictly
increasing turn numbers, and each turn_order value yields at most one Segment
(the turn sequence is duplicate-free). -/
theorem aggregator_strictly_increasing_turns (language : String)
    (tr : String → String) (now : Nat) (l : List TurnEventData)
    (h : (l.map (fun e => e.turn_order)).Chain' (· < ·)) :
    ((turnsOf (processEvents language tr now l initialState)).Chain' (· < ·)) ∧
    (turnsOf (processEvents language tr now l initialState)).Nodup := by
  have hmain : (turnsOf (processEvents language tr now l initialState)).Chain' (· < ·) := by
    cases l with
    | nil => exact List.chain'_nil
    | cons e t =>
        have hch : ((e.turn_order - 1) ::
            ((e :: t).map (fun e => e.turn_order))).Chain' (· < ·) := by
          rw [List.map_cons, List.chain'_cons]
          exact ⟨by omega, by rw [List.map_cons] at h; exact h⟩
        obtain ⟨q, hq⟩ := AggInv.processEvents language tr now
          (e :: t) initialState (e.turn_order - 1) (AggInv.initial _) hch
        exact hq.sorted
  exact ⟨hmain, List.Pairwise.imp ne_of_lt (List.chain'_iff_pairwise.mp hmain)⟩

theorem aggregator_strictly_increasing_turns_witness :
    ((turnsOf (processEvents "en" (fun t => t) 0
        [mkTurnEvent 0 true [finalWord "A"], mkTurnEvent 1 true [finalWord "B"]]
        initialState)).Chain' (· < ·)) ∧
    (turnsOf (processEvents "en" (fun t => t) 0
        [mkTurnEvent 0 true [finalWord "A"], mkTurnEvent 1 true [finalWord "B"]]
        initialState)).Nodup :=
  aggregator_strictly_increasing_turns "en" (fun t => t) 0
    [mkTurnEvent 0 true [finalWord "A"], mkTurnEvent 1 true [finalWord "B"]]
    (by
      have hm : (([mkTurnEvent 0 true [finalWord "A"],
          mkTurnEvent 1 true [finalWord "B"]]).map (fun e => e.turn_order)) = [0, 1] := by
        decide
      rw [hm]
      exact List.chain'_pair.mpr (by norm_num))

lemma accumulateWords_mem_of_mem :
    ∀ (ws : List Word) (acc : List String) (w : String),
      w ∈ acc → w ∈ accumulateWords ws acc
  | [], _, _, h => h
  | wd :: ws, acc, w, h => by
      unfold accumulateWords
      rw [List.foldl_cons]
      show w ∈ accumulateWords ws _
      split
      · exact accumulateWords_mem_of_mem ws _ w (List.mem_append_left _ h)
      · exact accumulateWords_mem_of_mem ws _ w h

lemma accumulateWords_mem_of_final :
    ∀ (ws : List Word) (acc : List String) (wd : Word),
      wd ∈ ws → wd.word_is_final = true → wd.text ∈ accumulateWords ws acc
  | [], _, _, h, _ => absurd h (List.not_mem_nil _)
  | w0 :: ws, acc, wd, h, hf => by
      unfold accumulateWords
      rw [List.foldl_cons]
      show wd.text ∈ accumulateWords ws _
      rcases List.mem_cons.mp h with rfl | hmem
      · by_cases hin : wd.word_is_final = true ∧ wd.text ∉ acc
        · rw [if_pos hin]
          exact accumulateWords_mem_of_mem ws _ _
            (List.mem_append_right _ (List.mem_singleton_self _))
        · rw [if_neg hin]
          push_neg at hin
          exact accumulateWords_mem_of_mem ws _ _ (hin hf)
      · split
        · exact accumulateWords_mem_of_final ws _ wd hmem hf
        · exact accumulateWords_mem_of_final ws _ wd hmem hf

lemma accumulateWords_nodup :
    ∀ (ws : List Word) (acc : List String), acc.Nodup → (accumulateWords ws acc).Nodup
  | [], _, h => h
  | wd :: ws, acc, h => by
      unfold accumulateWords
      rw [List.foldl_cons]
      show (accumulateWords ws _).Nodup
      by_cases hin : wd.word_is_final = true ∧ wd.text ∉ acc
      · rw [if_pos hin]
        exact accumulateWords_nodup ws _
          (h.append (List.nodup_singleton _) (List.disjoint_singleton.mpr hin.2))
      · rw [if_neg hin]
        exact accumulateWords_nodup ws _ h

lemma accumulateWords_of_all_seen :
    ∀ (ws : List Word) (acc : List String),
      (∀ wd ∈ ws, wd.word_is_final = true ∧ wd.text ∈ acc) →
      accumulateWords ws acc = acc
  | [], _, _ => rfl
  | wd :: ws, acc, h => by
      unfold accumulateWords
      rw [List.foldl_cons]
      show accumulateWords ws _ = acc
      have hwd := h wd (List.mem_cons_self wd ws)
      rw [if_neg (by intro hc; exact hc.2 hwd.2)]
      exact accumulateWords_of_all_seen ws acc (fun x hx => h x (List.mem_cons_of_mem _ hx))

/-- The open-turn word list accumulated over a sequence of events. -/
def foldAccum (l : List TurnEventData) (acc : List String) : List String :=
  l.foldl (fun a e => accumulateWords e.words a) acc

lemma foldAccum_mem_of_mem :
    ∀ (l : List TurnEventData) (acc : List String) (w : String),
      w ∈ acc → w ∈ foldAccum l acc
  | [], _, _, h => h
  | _ :: l, acc, w, h =>
      foldAccum_mem_of_mem l _ w (accumulateWords_mem_of_mem _ acc w h)

lemma foldAccum_nodup :
    ∀ (l : List TurnEventData) (acc : List String), acc.Nodup → (foldAccum l acc).Nodup
  | [], _, h => h
  | _ :: l, acc, h => foldAccum_nodup l _ (accumulateWords_nodup _ acc h)

lemma foldAccum_mem_of_final :
    ∀ (l : List TurnEventData) (acc : List String) (w : String),
      (∃ e ∈ l, ∃ wd ∈ e.words, wd.word_is_final = true ∧ wd.text = w) →
      w ∈ foldAccum l acc
  | [], _, _, h => by
      obtain ⟨e, he, _⟩ := h
      exact absurd he (List.not_mem_nil e)
  | e0 :: l, acc, w, h => by
      obtain ⟨e, he, wd, hwd, hf, hw⟩ := h
      rcases List.mem_cons.mp he with rfl | hmem
      · exact foldAccum_mem_of_mem l _ w
          (hw ▸ accumulateWords_mem_of_final e.words acc wd hwd hf)
      · exact foldAccum_mem_of_final l _ w ⟨e, hmem, wd, hwd, hf, hw⟩

lemma handleTurnEventRun_accumulate (language : String) (tr : String → String)
    (now : Nat) {e : TurnEventData} {s : AggState}
    (ht : e.turn_order = s.currentTurnOrder) (he : e.end_of_turn = false) :
    handleTurnEventRun language tr now e s =
      { s with currentTurnWords := accumulateWords e.words s.currentTurnWords } := by
  rw [handleTurnEventRun_eq]
  unfold openPhase
  rw [if_neg (not_not_intro ht)]
  unfold closePhase
  rw [if_neg (by rw [he]; rintro ⟨hc, _⟩; exact Bool.false_ne_true hc)]

lemma handleTurnEventRun_close (language : String) (tr : String → String)
    (now : Nat) {e : TurnEventData} {s : AggState}
    (ht : e.turn_order = s.currentTurnOrder) (he : e.end_of_turn = true)
    (hw : 0 < (accumulateWords e.words s.currentTurnWords).length) :
    handleTurnEventRun language tr now e s =
      pushFinal now (avgConfidenceOf e.words) e
        (translatedFor language tr
          (String.intercalate " " (accumulateWords e.words s.currentTurnWords)))
        { s with currentTurnWords := accumulateWords e.words s.currentTurnWords } := by
  rw [handleTurnEventRun_eq]
  unfold openPhase
  rw [if_neg (not_not_intro ht)]
  unfold closePhase
  rw [if_pos ⟨he, hw⟩]

lemma processEvents_open (language : String) (tr : String → String) (now : Nat) :
    ∀ (l : List TurnEventData) (s : AggState),
      (∀ e ∈ l, e.turn_order = s.currentTurnOrder ∧ e.end_of_turn = false) →
      processEvents language tr now l s =
        { s with currentTurnWords := foldAccum l s.currentTurnWords }
  | [], s, _ => rfl
  | e :: l, s, h => by
      have he := h e (List.mem_cons_self e l)
      show processEvents language tr now l (handleTurnEventRun language tr now e s) = _
      rw [handleTurnEventRun_accumulate language tr now he.1 he.2]
      have hrec := processEvents_open language tr now l
        { s with currentTurnWords := accumulateWords e.words s.currentTurnWords }
        (fun x hx => h x (List.mem_cons_of_mem _ hx))
      rw [hrec]
      rfl

lemma handleTurnEventRun_open_from_empty (language : String) (tr : String → String)
    (now : Nat) {e : TurnEventData} {s : AggState}
    (hw : s.currentTurnWords = []) (he : e.end_of_turn = false) :
    ∃ ci, handleTurnEventRun language tr now e s =
      { s with currentTurnWords := accumulateWords e.words []
               currentTurnOrder := e.turn_order
               colorIndex := ci } := by
  rw [handleTurnEventRun_eq]
  unfold openPhase
  by_cases hb : e.turn_order ≠ s.currentTurnOrder
  · refine ⟨(s.colorIndex + 1) % 6, ?_⟩
    rw [if_pos hb, if_neg (by rw [hw]; simp)]
    unfold closePhase
    rw [if_neg (by rw [he]; rintro ⟨hc, _⟩; exact Bool.false_ne_true hc)]
    rfl
  · push_neg at hb
    refine ⟨s.colorIndex, ?_⟩
    rw [if_neg (not_not_intro hb)]
    unfold closePhase
    rw [if_neg (by rw [he]; rintro ⟨hc, _⟩; exact Bool.false_ne_true hc)]
    rw [hw, hb]

lemma handleTurnEventRun_close_from_empty (language : String) (tr : String → String)
    (now : Nat) {e : TurnEventData} {s : AggState}
    (hw : s.currentTurnWords = []) (he : e.end_of_turn = true)
    (hnon : 0 < (accumulateWords e.words []).length) :
    (handleTurnEventRun language tr now e s).transcript.map (fun g => g.text) =
      s.transcript.map (fun g => g.text) ++
        [String.intercalate " " (accumulateWords e.words [])] := by
  rw [handleTurnEventRun_eq]
  unfold openPhase
  by_cases hb : e.turn_order ≠ s.currentTurnOrder
  · rw [if_pos hb, if_neg (by rw [hw]; simp)]
    simp only [closePhase, boundaryReset]
    rw [if_pos ⟨he, hnon⟩]
    simp [pushFinal, boundaryReset]
  · rw [if_neg hb]
    simp only [closePhase]
    rw [hw]
    rw [if_pos ⟨he, hnon⟩]
    simp [pushFinal]

/-- Claim C4: for every event sequence that stays within one open turn (all
events share one turn_order, only the last has end_of_turn) and repeats the
same final word text, exactly one Segment is produced, its text is the
space-join of the accumulated open-turn word list, and that list contains the
repeated word exactly once: a final word is appended to the open-turn word
list only if its exact text is not already present. -/
theorem aggregator_dedup_exactly_once (language : String) (tr : String → String)
    (now : Nat) (t : Int) (l' : List TurnEventData) (elast : TurnEventData) (w : String)
    (hall : ∀ e ∈ l' ++ [elast], e.turn_order = t)
    (hmid : ∀ e ∈ l', e.end_of_turn = false)
    (hlast : elast.end_of_turn = true)
    (hfin : ∃ e ∈ l' ++ [elast], ∃ wd ∈ e.words, wd.word_is_final = true ∧ wd.text = w) :
    (processEvents language tr now (l' ++ [elast]) initialState).transcript.map
        (fun g => g.text) = [String.intercalate " " (foldAccum (l' ++ [elast]) [])] ∧
    (foldAccum (l' ++ [elast]) []).count w = 1 := by
  have hwmem : w ∈ foldAccum (l' ++ [elast]) [] := foldAccum_mem_of_final _ _ _ hfin
  have hnodup := foldAccum_nodup (l' ++ [elast]) [] List.nodup_nil
  refine ⟨?_, List.count_eq_one_of_mem hnodup hwmem⟩
  cases l' with
  | nil =>
      rw [List.nil_append] at hwmem ⊢
      have hfold : foldAccum [elast] ([] : List String) = accumulateWords elast.words [] := rfl
      rw [hfold] at hwmem
      have hnon : 0 < (accumulateWords elast.words []).length :=
        List.length_pos.mpr (List.ne_nil_of_mem hwmem)
      have hrun := handleTurnEventRun_close_from_empty language tr now
        (e := elast) (s := initialState) rfl hlast hnon
      show (handleTurnEventRun language tr now elast initialState).transcript.map
        (fun g => g.text) = _
      rw [hrun, hfold]
      rfl
  | cons f rest =>
      have hf : f.turn_order = t := hall f (by simp)
      have hfe : f.end_of_turn = false := hmid f (by simp)
      obtain ⟨ci, hs1⟩ := handleTurnEventRun_open_from_empty language tr now
        (e := f) (s := initialState) rfl hfe
      have hfold : foldAccum ((f :: rest) ++ [elast]) ([] : List String) =
          accumulateWords elast.words (foldAccum rest (accumulateWords f.words [])) := by
        unfold foldAccum
        rw [List.cons_append, List.foldl_cons, List.foldl_append]
        rfl
      rw [hfold] at hwmem
      have hstep : processEvents language tr now ((f :: rest) ++ [elast]) initialState =
          handleTurnEventRun language tr now elast
            (processEvents language tr now rest
              { initialState with
                  currentTurnWords := accumulateWords f.words []
                  currentTurnOrder := f.turn_order
                  colorIndex := ci }) := by
        show processEvents language tr now (rest ++ [elast])
            (handleTurnEventRun language tr now f initialState) = _
        rw [hs1]
        unfold processEvents
        rw [List.foldl_append]
        rfl
      have hopen := processEvents_open language tr now
        rest
        { initialState with
            currentTurnWords := accumulateWords f.words []
            currentTurnOrder := f.turn_order
            colorIndex := ci }
        (fun x hx => ⟨(hall x (by simp [hx])).trans hf.symm, hmid x (by simp [hx])⟩)
      have hclose := handleTurnEventRun_close language tr now
        (e := elast)
        (s := { initialState with
                  currentTurnWords := foldAccum rest (accumulateWords f.words [])
                  currentTurnOrder := f.turn_order
                  colorIndex := ci })
        ((hall elast (by simp)).trans hf.symm)
        hlast
        (List.length_pos.mpr (List.ne_nil_of_mem hwmem))
      rw [hstep, hopen]
      rw [show ({ initialState with
              currentTurnWords := accumulateWords f.words []
              currentTurnOrder := f.turn_order
              colorIndex := ci } : AggState).currentTurnWords =
            accumulateWords f.words [] from rfl] at hopen ⊢
      rw [hclose]
      rw [hfold]
      simp [pushFinal, initialState]

theorem aggregator_dedup_exactly_once_witness :
    (processEvents "en" (fun t => t) 0
        ([mkTurnEvent 0 false [finalWord "A"]] ++ [mkTurnEvent 0 true [finalWord "A"]])
        initialState).transcript.map (fun g => g.text) =
      [String.intercalate " "
        (foldAccum
          ([mkTurnEvent 0 false [finalWord "A"]] ++ [mkTurnEvent 0 true [finalWord "A"]])
          [])] ∧
    (foldAccum ([mkTurnEvent 0 false [finalWord "A"]] ++ [mkTurnEvent 0 true [finalWord "A"]])
        []).count "A" = 1 :=
  aggregator_dedup_exactly_once "en" (fun t => t) 0 0
    [mkTurnEvent 0 false [finalWord "A"]] (mkTurnEvent 0 true [finalWord "A"]) "A"
    (by decide) (by decide) (by decide) (by decide)

/-- Claim C9: for every aggregator state with an open turn, an event whose
turn_order equals the open turn order, whose words are all final words whose
texts are already present in the open-turn word list, and whose end_of_turn
is false, leaves the whole aggregator state unchanged. -/
theorem aggregator_noop_on_seen_words (language : String) (tr : String → String)
    (now : Nat) (e : TurnEventData) (s : AggState)
    (_hopen : s.currentTurnOrder ≠ -1)
    (ht : e.turn_order = s.currentTurnOrder)
    (he : e.end_of_turn = false)
    (hseen : ∀ wd ∈ e.words, wd.word_is_final = true ∧ wd.text ∈ s.currentTurnWords) :
    handleTurnEventRun language tr now e s = s := by
  rw [handleTurnEventRun_accumulate language tr now ht he,
    accumulateWords_of_all_seen e.words s.currentTurnWords hseen]

theorem aggregator_noop_on_seen_words_witness :
    handleTurnEventRun "en" (fun t => t) 0 (mkTurnEvent 0 false [finalWord "A"])
      { transcript := [], currentTurnWords := ["A"], currentTurnOrder := 0, colorIndex := 1 } =
      { transcript := [], currentTurnWords := ["A"], currentTurnOrder := 0, colorIndex := 1 } :=
  aggregator_noop_on_seen_words "en" (fun t => t) 0 _ _ (by decide) (by decide) (by decide)
    (by decide)

/-- Claim C2, the code evaluated at the failing input: with a non-English
target language, handling {turn_order 0, end_of_turn true, words [A(final)]}
from the initial state suspends on `await translate(...)` BEFORE the Segment
is appended — the handler result is a suspension whose observable transcript
is still empty, and only resolving the translation produces the segment. A
translation that never resolves therefore leaves the handler incomplete and
the Segment never appended, contradicting the claim (and spec section 5),
as spec section 9 itself flags for this source. -/
theorem aggregator_blocks_on_translation :
    (handleTurnEvent "es" 0 (mkTurnEvent 0 true [finalWord "A"])
        initialState).isAwaiting = true ∧
    (handleTurnEvent "es" 0 (mkTurnEvent 0 true [finalWord "A"])
        initialState).pendingTranscript = some [] ∧
    (handleTurnEventRun "es" (fun t => t) 0 (mkTurnEvent 0 true [finalWord "A"])
        initialState).transcript.length = 1 :=
  ⟨rfl, rfl, rfl⟩

/-- The event of the explicit-close test: turn 0, end_of_turn, two final
words "A" and "B" with arbitrary timing/confidence metadata. -/
def closeEventAB (sa ea ca sb eb cb : ℚ) : TurnEventData :=
  mkTurnEvent 0 true
    [{ start := sa, end_ := ea, confidence := ca, text := "A", word_is_final := true },
     { start := sb, end_ := eb, confidence := cb, text := "B", word_is_final := true }]

/-- Claim C5: processing the single event {turn_order 0, end_of_turn true,
words [A(final), B(final)]} from the initial aggregator state produces exactly
one Segment, with turn 0 and text "A B", and resets the open-turn state
(open words empty, open turn order -1). -/
theorem aggregator_explicit_close (language : String) (tr : String → String)
    (now : Nat) (sa ea ca sb eb cb : ℚ) :
    ((processEvents language tr now [closeEventAB sa ea ca sb eb cb]
        initialState).transcript.map (fun g => (g.turn, g.text)) =
      [((0 : Int), "A B")]) ∧
    (processEvents language tr now [closeEventAB sa ea ca sb eb cb]
        initialState).currentTurnWords = [] ∧
    (processEvents language tr now [closeEventAB sa ea ca sb eb cb]
        initialState).currentTurnOrder = -1 := by
  have hrun : processEvents language tr now [closeEventAB sa ea ca sb eb cb] initialState =
      handleTurnEventRun language tr now (closeEventAB sa ea ca sb eb cb) initialState := rfl
  rw [hrun, handleTurnEventRun_eq]
  exact ⟨rfl, rfl, rfl⟩

/-- First event of the turn-jump test: turn 0, no end_of_turn, one final
word "A" with arbitrary metadata. -/
def openEventA (sa ea ca : ℚ) : TurnEventData :=
  mkTurnEvent 0 false
    [{ start := sa, end_ := ea, confidence := ca, text := "A", word_is_final := true }]

/-- Second event of the turn-jump test: turn 1, no end_of_turn, one final
word "B" with arbitrary metadata. -/
def openEventB (sb eb cb : ℚ) : TurnEventData :=
  mkTurnEvent 1 false
    [{ start := sb, end_ := eb, confidence := cb, text := "B", word_is_final := true }]

/-- Claim C6: processing {turn_order 0, words [A(final)], no end_of_turn}
then {turn_order 1, words [B(final)]} from the initial state produces exactly
one Segment — for turn 0 with text "A", created by the implicit close when
the higher turn_order arrives — before any Segment for turn 1 exists; turn 1
is then the open turn holding "B". -/
theorem aggregator_turn_jump_close (language : String) (tr : String → String)
    (now : Nat) (sa ea ca sb eb cb : ℚ) :
    ((processEvents language tr now [openEventA sa ea ca, openEventB sb eb cb]
        initialState).transcript.map (fun g => (g.turn, g.text)) =
      [((0 : Int), "A")]) ∧
    (processEvents language tr now [openEventA sa ea ca, openEventB sb eb cb]
        initialState).currentTurnOrder = 1 ∧
    (processEvents language tr now [openEventA sa ea ca, openEventB sb eb cb]
        initialState).currentTurnWords = ["B"] := by
  have hrun : processEvents language tr now [openEventA sa ea ca, openEventB sb eb cb]
        initialState =
      handleTurnEventRun language tr now (openEventB sb eb cb)
        (handleTurnEventRun language tr now (openEventA sa ea ca) initialState) := rfl
  rw [hrun]
  simp only [handleTurnEventRun_eq]
  exact ⟨rfl, rfl, rfl⟩

/-- Claim C3 counterexample: when the translation fetch fails (here with
HTTP status 500), `translate` resolves with "Translation Error: " ++ text
instead of leaving the segment untranslated, and that string is attached as
the appended Segment's translated_text — so translated_text does not remain
unset as the claim states. -/
theorem translation_failure_counterexample :
    (handleTurnEventRun "es" (translate (FetchResult.httpError 500)) 0
        (mkTurnEvent 0 true [finalWord "A"]) initialState).transcript.map
      (fun g => g.translated_text) = [some "Translation Error: A"] ∧
    ¬ ((handleTurnEventRun "es" (translate (FetchResult.httpError 500)) 0
        (mkTurnEvent 0 true [finalWord "A"]) initialState).transcript.map
      (fun g => g.translated_text) = [none]) :=
  ⟨rfl, by decide⟩

/-- Claim C3 (amended): on a non-success HTTP response or a network failure
the translation call resolves (it does not reject) with the string
"Translation Error: " followed by the original text, the appended Segment's
translated_text is set to exactly that string, and the transcript is
otherwise intact: the single segment still has turn 0 and text "A". -/
theorem translation_failure_amended (outcome : FetchResult) (st : Nat)
    (h : outcome = FetchResult.httpError st ∨ outcome = FetchResult.networkError)
    (txt : String) :
    translate outcome txt = "Translation Error: " ++ txt ∧
    (handleTurnEventRun "es" (translate outcome) 0
        (mkTurnEvent 0 true [finalWord "A"]) initialState).transcript.map
      (fun g => (g.turn, g.text, g.translated_text)) =
      [((0 : Int), "A", some "Translation Error: A")] := by
  have htr : ∀ u : String, translate outcome u = "Translation Error: " ++ u := by
    intro u
    rcases h with rfl | rfl <;> rfl
  refine ⟨htr txt, ?_⟩
  rw [handleTurnEventRun_eq]
  show [((0 : Int), "A", some (translate outcome "A"))] =
    [((0 : Int), "A", some "Translation Error: A")]
  rw [htr]
  rfl

theorem translation_failure_amended_witness :
    translate (FetchResult.httpError 500) "x" = "Translation Error: x" ∧
    (handleTurnEventRun "es" (translate (FetchResult.httpError 500)) 0
        (mkTurnEvent 0 true [finalWord "A"]) initialState).transcript.map
      (fun g => (g.turn, g.text, g.translated_text)) =
      [((0 : Int), "A", some "Translation Error: A")] :=
  translation_failure_amended (FetchResult.httpError 500) 500 (Or.inl rfl) "x"

end Transcriber
